import Mathlib

/-!
A shallow embedding of the `bf` interpreter (JordyAaldering/bf).

The repository contains two generations of code:

* `src/lexer.rs`, `src/parser.rs`, `src/opt.rs`: the tree-based pipeline.
  `Instruction` there is a recursive sum type whose `Loop` constructor owns
  its body as a `Vec<Instruction>`.  The optimizer passes `cancel` and
  `clearloop` rewrite that tree.
* `src/main.rs`: a self-contained flat pipeline (`Instruction` with
  `LoopOpen(usize)` / `LoopEnd(usize)` jump offsets) with its own `parse`,
  `cancel`, `clearloop` and the evaluator `eval`.

Rust panics (vector index out of bounds, `usize` subtraction overflow with
overflow checks) are modelled as `none` / a `fault` outcome; `io::Result`
errors are a separate, caught outcome.
-/

/-- Tree instruction type, from `src/opt.rs`/`src/parser.rs`: `Loop` owns
its body as a nested sequence. -/
inductive Instr where
  | IncPtr : Instr
  | DecPtr : Instr
  | IncVal : Instr
  | DecVal : Instr
  | ClearVal : Instr
  | Write : Instr
  | Read : Instr
  | Loop : List Instr → Instr

namespace Opt

mutual

/-- Size of a tree instruction (1 + size of a loop body); used only as a
termination measure for `scan`/`cancel`. -/
def sizeI : Instr → Nat
  | .Loop b => 1 + sizeL b
  | _ => 1

/-- Total size of an instruction list. -/
def sizeL : List Instr → Nat
  | [] => 0
  | x :: xs => sizeI x + sizeL xs

end

theorem sizeL_nil : sizeL [] = 0 := rfl

theorem sizeL_cons (x : Instr) (xs : List Instr) :
    sizeL (x :: xs) = sizeI x + sizeL xs := rfl

theorem sizeI_loop (b : List Instr) : sizeI (.Loop b) = 1 + sizeL b := rfl

/-- The four adjacent pairs removed by `opt.rs::cancel`:
`(IncPtr, DecPtr) | (DecPtr, IncPtr) | (IncVal, DecVal) | (DecVal, IncVal)`. -/
def cancellable : Instr → Instr → Bool
  | .IncPtr, .DecPtr => true
  | .DecPtr, .IncPtr => true
  | .IncVal, .DecVal => true
  | .DecVal, .IncVal => true
  | _, _ => false

/-- The `if let Loop(instr) = &mut bf[i]` test. -/
def isLoop : Instr → Option (List Instr)
  | .Loop b => some b
  | _ => none

theorem sizeI_pos (x : Instr) : 1 ≤ sizeI x := by
  cases x <;> simp [sizeI]

theorem length_le_sizeL (l : List Instr) : l.length ≤ sizeL l := by
  induction l with
  | nil => simp [sizeL]
  | cons x xs ih =>
    have := sizeI_pos x
    simp only [sizeL_cons, List.length_cons]
    omega

theorem sizeL_append (l₁ l₂ : List Instr) :
    sizeL (l₁ ++ l₂) = sizeL l₁ + sizeL l₂ := by
  induction l₁ with
  | nil => simp [sizeL]
  | cons x xs ih =>
    simp only [List.cons_append, sizeL_cons, ih]
    omega

theorem sizeL_reverse (l : List Instr) : sizeL l.reverse = sizeL l := by
  induction l with
  | nil => rfl
  | cons x xs ih =>
    simp only [List.reverse_cons, sizeL_append, sizeL_cons, sizeL_nil, ih]
    omega

theorem isLoop_eq_some {x : Instr} {b : List Instr} :
    isLoop x = some b ↔ x = .Loop b := by
  cases x <;> simp [isLoop]

theorem isLoop_eq_none {x : Instr} :
    isLoop x = none ↔ ∀ b, x ≠ .Loop b := by
  cases x <;> simp [isLoop]

/-- `opt.rs::cancel`, in zipper form.  The Rust loop walks an index `i`
back-to-front over the vector `bf`; here `rpre` is the part of the vector
strictly left of `i`, reversed (its head is `bf[i - 1]`), and `post` is the
part from `i` on (its head is `bf[i]`).  The loop runs while `i > 0`, i.e.
while `rpre` is nonempty.  `bf[i]` panics when `i ≥ len`, i.e. when `post`
is empty; panics are `none`.

* `Loop` head: recurse into the body (`cancel`, inlined here: a scan of the
  body from its own `len() - 1`; an empty body panics on the underflowing
  `len() - 1`), write the result back, then `i -= 1`.
* cancellable pair `(bf[i-1], bf[i])`: `bf.remove(i); bf.remove(i-1)` with
  `i` left unchanged, so the element that was at `i + 1` (if any) crosses to
  the left of the new scan position, and if there was no such element the
  next `bf[i]` access is out of bounds.
* otherwise `i -= 1`. -/
def scan : (rpre : List Instr) → (post : List Instr) →
    Option {r : List Instr // sizeL r ≤ sizeL rpre + sizeL post}
  | [], post => some ⟨post, by simp [sizeL]⟩
  | _ :: _, [] => none
  | l :: rp, r :: post' =>
    match hL : isLoop r with
    | some body =>
      match hrev : body.reverse with
      | [] => none
      | br :: brp =>
        match scan brp [br] with
        | none => none
        | some ⟨b', hb⟩ =>
          match scan rp (l :: .Loop b' :: post') with
          | none => none
          | some ⟨res, hres⟩ => some ⟨res, by
              have hbody : sizeL body = sizeI br + sizeL brp := by
                have h := sizeL_reverse body
                rw [hrev] at h
                simp only [sizeL_cons] at h
                omega
              have hr : r = .Loop body := isLoop_eq_some.mp hL
              subst hr
              simp only [sizeL_cons, sizeL_nil, sizeI_loop] at hres hb ⊢
              omega⟩
    | none =>
      if cancellable l r then
        match post' with
        | [] => none
        | z :: post'' =>
          match scan (z :: rp) post'' with
          | none => none
          | some ⟨res, hres⟩ => some ⟨res, by
              have h1 := sizeI_pos l
              have h2 := sizeI_pos r
              simp only [sizeL_cons] at hres ⊢
              omega⟩
      else
        match scan rp (l :: r :: post') with
        | none => none
        | some ⟨res, hres⟩ => some ⟨res, by
            simp only [sizeL_cons] at hres ⊢
            omega⟩
termination_by rpre post => (sizeL rpre + sizeL post, 2 * rpre.length + post.length)
decreasing_by
  · -- recursion into the loop body
    have hbody : sizeL body = sizeI br + sizeL brp := by
      have h := sizeL_reverse body
      rw [hrev] at h
      simp only [sizeL_cons] at h
      omega
    have hr : r = Instr.Loop body := isLoop_eq_some.mp hL
    subst hr
    have hl := sizeI_pos l
    apply Prod.Lex.left
    simp only [sizeL_cons, sizeL_nil, sizeI_loop]
    omega
  · -- continuing left after the loop body was rewritten
    have hbody : sizeL body = sizeI br + sizeL brp := by
      have h := sizeL_reverse body
      rw [hrev] at h
      simp only [sizeL_cons] at h
      omega
    have hr : r = Instr.Loop body := isLoop_eq_some.mp hL
    subst hr
    simp only [sizeL_cons, sizeL_nil, sizeI_loop] at hb
    rcases Nat.lt_or_ge (sizeL b') (sizeL body) with h | h
    · apply Prod.Lex.left
      simp only [sizeL_cons, sizeL_nil, sizeI_loop]
      omega
    · have _hEq : sizeL b' = sizeL body := by omega
      have hfst : sizeL rp + sizeL (l :: Instr.Loop b' :: post') =
          sizeL (l :: rp) + sizeL (Instr.Loop body :: post') := by
        simp only [sizeL_cons, sizeI_loop]
        omega
      rw [hfst]
      apply Prod.Lex.right
      simp only [List.length_cons]
      omega
  · -- removal of a cancellable pair
    have h1 := sizeI_pos l
    have h2 := sizeI_pos r
    apply Prod.Lex.left
    simp only [sizeL_cons]
    omega
  · -- plain step left
    have hfst : sizeL rp + sizeL (l :: r :: post') =
        sizeL (l :: rp) + sizeL (r :: post') := by
      simp only [sizeL_cons]
      omega
    rw [hfst]
    apply Prod.Lex.right
    simp only [List.length_cons]
    omega

/-- `scan`, forgetting the size bound. -/
def scanV (rpre post : List Instr) : Option (List Instr) :=
  (scan rpre post).map Subtype.val

/-- `opt.rs::cancel`.  `let mut i = bf.len() - 1` underflows (panics) on an
empty vector; otherwise the scan starts at the last element. -/
def cancel (bf : List Instr) : Option (List Instr) :=
  match bf.reverse with
  | [] => none
  | r :: rp => scanV rp [r]

/-- The `[IncVal] | [DecVal]` slice patterns of `opt.rs::clearloop`. -/
def isClearBody : List Instr → Bool
  | [.IncVal] => true
  | [.DecVal] => true
  | _ => false

mutual

/-- `opt.rs::clearloop` on one element: a `Loop` whose body matches the
clear pattern becomes `ClearVal`, any other `Loop` is recursed into, and
every non-`Loop` element is left alone. -/
def clearloopI : Instr → Instr
  | .Loop b => if isClearBody b then .ClearVal else .Loop (clearloopL b)
  | x => x

/-- `opt.rs::clearloop`: `for x in bf { ... }`. -/
def clearloopL : List Instr → List Instr
  | [] => []
  | x :: xs => clearloopI x :: clearloopL xs

end

/-- No adjacent cancellable pair anywhere in the list. -/
def pairsOK (l : List Instr) : Prop :=
  List.Chain' (fun a b => cancellable a b = false) l

/-- Every `Loop` among the given elements has a body `cancel` maps to
itself. -/
def loopsFixed (l : List Instr) : Prop :=
  ∀ b, Instr.Loop b ∈ l → cancel b = some b

/-- Lists on which a completed `cancel` scan acts as the identity: no
cancellable adjacent pair, and every loop body except possibly the one at
position 0 (which the `while i > 0` loop never visits) is itself fixed. -/
def normAt (l : List Instr) : Prop :=
  pairsOK l ∧ loopsFixed l.tail

end Opt

/-- `lexer.rs::Token`. -/
inductive Token where
  | Gt : Token
  | Lt : Token
  | Plus : Token
  | Minus : Token
  | Dot : Token
  | Comma : Token
  | LSquare : Token
  | RSquare : Token
deriving DecidableEq

/-- `lexer.rs::Lexer::next`, per character: the eight symbol characters
produce a token; every other character (including `\n`, which only advances
the internal line/column counters that no output depends on) is skipped. -/
def tokOf : Char → Option Token
  | '>' => some .Gt
  | '<' => some .Lt
  | '+' => some .Plus
  | '-' => some .Minus
  | '.' => some .Dot
  | ',' => some .Comma
  | '[' => some .LSquare
  | ']' => some .RSquare
  | _ => none

/-- The full token stream of a source text (`Lexer` as an `Iterator`). -/
def lex (s : List Char) : List Token :=
  s.filterMap tokOf

namespace Parser

/-- `parser.rs::Error`.  `MissingLoopOpen` is raised for a `]` with no open
loop (the spec calls this `UnmatchedLoopClose`); `MissingLoopEnd` for a `[`
still open when the tokens run out (the spec's `UnmatchedLoopOpen`). -/
inductive Error where
  | MissingLoopOpen : Error
  | MissingLoopEnd : Error
deriving DecidableEq

/-- The token-to-instruction arms shared by `parse` and `parse_loop` for the
six non-bracket symbols. -/
def simpleInstr : Token → Option Instr
  | .Gt => some .IncPtr
  | .Lt => some .DecPtr
  | .Plus => some .IncVal
  | .Minus => some .DecVal
  | .Dot => some .Write
  | .Comma => some .Read
  | .LSquare => none
  | .RSquare => none

/-- `parser.rs::Parser::parse_loop`.  The Rust `while let` loop is unrolled
into recursion: handle one token, recurse on the remaining stream, prepend.
`RSquare` returns the collected body (and the unconsumed rest of the
stream); exhausting the stream is `MissingLoopEnd`.  The returned stream is
strictly shorter than the input (at least the matching `]` is consumed). -/
def parseLoop : (ts : List Token) →
    Except Error {p : List Instr × List Token // p.2.length < ts.length}
  | [] => .error .MissingLoopEnd
  | .RSquare :: ts' => .ok ⟨([], ts'), by simp⟩
  | .LSquare :: ts' =>
    match parseLoop ts' with
    | .error e => .error e
    | .ok ⟨(body, rest), h⟩ =>
      match parseLoop rest with
      | .error e => .error e
      | .ok ⟨(is, rest'), h'⟩ =>
        .ok ⟨(.Loop body :: is, rest'), by simp at *; omega⟩
  | .Gt :: ts' =>
    match parseLoop ts' with
    | .error e => .error e
    | .ok ⟨(is, rest), h⟩ => .ok ⟨(.IncPtr :: is, rest), by simp at *; omega⟩
  | .Lt :: ts' =>
    match parseLoop ts' with
    | .error e => .error e
    | .ok ⟨(is, rest), h⟩ => .ok ⟨(.DecPtr :: is, rest), by simp at *; omega⟩
  | .Plus :: ts' =>
    match parseLoop ts' with
    | .error e => .error e
    | .ok ⟨(is, rest), h⟩ => .ok ⟨(.IncVal :: is, rest), by simp at *; omega⟩
  | .Minus :: ts' =>
    match parseLoop ts' with
    | .error e => .error e
    | .ok ⟨(is, rest), h⟩ => .ok ⟨(.DecVal :: is, rest), by simp at *; omega⟩
  | .Dot :: ts' =>
    match parseLoop ts' with
    | .error e => .error e
    | .ok ⟨(is, rest), h⟩ => .ok ⟨(.Write :: is, rest), by simp at *; omega⟩
  | .Comma :: ts' =>
    match parseLoop ts' with
    | .error e => .error e
    | .ok ⟨(is, rest), h⟩ => .ok ⟨(.Read :: is, rest), by simp at *; omega⟩
termination_by ts => ts.length
decreasing_by all_goals (simp at *; try omega)

/-- `parser.rs::Parser::parse` (top level).  Like `parse_loop` but `RSquare`
is an immediate `MissingLoopOpen` error and stream exhaustion is success. -/
def parse : (ts : List Token) → Except Error (List Instr)
  | [] => .ok []
  | .RSquare :: _ => .error .MissingLoopOpen
  | .LSquare :: ts' =>
    match parseLoop ts' with
    | .error e => .error e
    | .ok ⟨(body, rest), _h⟩ =>
      match parse rest with
      | .error e => .error e
      | .ok is => .ok (.Loop body :: is)
  | .Gt :: ts' =>
    match parse ts' with
    | .error e => .error e
    | .ok is => .ok (.IncPtr :: is)
  | .Lt :: ts' =>
    match parse ts' with
    | .error e => .error e
    | .ok is => .ok (.DecPtr :: is)
  | .Plus :: ts' =>
    match parse ts' with
    | .error e => .error e
    | .ok is => .ok (.IncVal :: is)
  | .Minus :: ts' =>
    match parse ts' with
    | .error e => .error e
    | .ok is => .ok (.DecVal :: is)
  | .Dot :: ts' =>
    match parse ts' with
    | .error e => .error e
    | .ok is => .ok (.Write :: is)
  | .Comma :: ts' =>
    match parse ts' with
    | .error e => .error e
    | .ok is => .ok (.Read :: is)
termination_by ts => ts.length
decreasing_by all_goals (simp at *; try omega)

/-- `parseLoop`, forgetting the length bound. -/
def parseLoopV (ts : List Token) : Except Error (List Instr × List Token) :=
  (parseLoop ts).map Subtype.val

end Parser

/-- Bracket-depth scan of a token stream, the specification-side notion of
nesting used to state the parser claims: `scanCls ts d = none` when some
loop-close token occurs at depth 0 (a stray close), otherwise `some d'` is
the depth after all tokens. -/
def scanCls : List Token → Nat → Option Nat
  | [], d => some d
  | t :: ts, d =>
    match t with
    | .LSquare => scanCls ts (d + 1)
    | .RSquare => if d = 0 then none else scanCls ts (d - 1)
    | _ => scanCls ts d

mutual

/-- Number of leaf (non-`Loop`) instructions of a tree instruction. -/
def leavesI : Instr → Nat
  | .Loop b => leavesL b
  | _ => 1

/-- Total number of leaf instructions in an instruction list. -/
def leavesL : List Instr → Nat
  | [] => 0
  | x :: xs => leavesI x + leavesL xs

end

/-- Tokens mapped to a leaf instruction by the parser. -/
def isSimple (t : Token) : Bool :=
  (Parser.simpleInstr t).isSome

/-- Count of tokens the parser maps to a leaf instruction. -/
def simpleCount (ts : List Token) : Nat :=
  ts.countP isSimple

/-- Characters lexed to one of the six non-bracket symbol tokens. -/
def charSimple (c : Char) : Bool :=
  match tokOf c with
  | some t => isSimple t
  | none => false

namespace Main

/-- `main.rs`'s flat `Instruction`: loops are stored as jump offsets into
the flat program vector. -/
inductive Instruction where
  | IncPtr : Instruction
  | DecPtr : Instruction
  | IncVal : Instruction
  | DecVal : Instruction
  | ClearVal : Instruction
  | Write : Instruction
  | Read : Instruction
  | LoopOpen : Nat → Instruction
  | LoopEnd : Nat → Instruction
deriving DecidableEq, Repr

/-- `main.rs::Error`. -/
inductive Error where
  | MissingLoopOpen : Nat → Error
  | MissingLoopEnd : Nat → Error
deriving DecidableEq, Repr

/-- State of `main.rs::parse`'s loop: the program built so far, the stack of
indices of still-open `[`, and `idx` (the index the next emitted instruction
will occupy; incremented exactly when an instruction is pushed). -/
structure PState where
  bf : List Instruction
  stack : List Nat
  idx : Nat
deriving DecidableEq, Repr

/-- One character of `main.rs::parse`: symbols push an instruction and bump
`idx`; `[` additionally pushes `idx` on the stack and emits `LoopOpen(0)`;
`]` pops the matching open index (erroring on an empty stack), patches that
`LoopOpen` with the current index, and emits `LoopEnd(open_idx)`; any other
character is skipped. -/
def parseStep (st : PState) (c : Char) : Except Error PState :=
  match c with
  | '>' => .ok ⟨st.bf ++ [.IncPtr], st.stack, st.idx + 1⟩
  | '<' => .ok ⟨st.bf ++ [.DecPtr], st.stack, st.idx + 1⟩
  | '+' => .ok ⟨st.bf ++ [.IncVal], st.stack, st.idx + 1⟩
  | '-' => .ok ⟨st.bf ++ [.DecVal], st.stack, st.idx + 1⟩
  | '.' => .ok ⟨st.bf ++ [.Write], st.stack, st.idx + 1⟩
  | ',' => .ok ⟨st.bf ++ [.Read], st.stack, st.idx + 1⟩
  | '[' => .ok ⟨st.bf ++ [.LoopOpen 0], st.idx :: st.stack, st.idx + 1⟩
  | ']' =>
    match st.stack with
    | [] => .error (.MissingLoopOpen st.idx)
    | openIdx :: rest =>
      .ok ⟨(st.bf.set openIdx (.LoopOpen st.idx)) ++ [.LoopEnd openIdx], rest, st.idx + 1⟩
  | _ => .ok st

/-- `main.rs::parse`: fold `parseStep` over the source, then fail with
`MissingLoopEnd(stack.len())` if any `[` is still open. -/
def parse (src : List Char) : Except Error (List Instruction) := do
  let st ← src.foldlM parseStep ⟨[], [], 0⟩
  if st.stack.isEmpty then pure st.bf else .error (.MissingLoopEnd st.stack.length)

/-- The cancellable pairs of `main.rs::cancel` (same four pairs as the tree
pass). -/
def cancellable : Instruction → Instruction → Bool
  | .IncPtr, .DecPtr => true
  | .DecPtr, .IncPtr => true
  | .IncVal, .DecVal => true
  | .DecVal, .IncVal => true
  | _, _ => false

/-- `main.rs::cancel`, in zipper form.  The Rust loop walks `i` forward
while `i + 1 < len`, examining `(bf[i], bf[i+1])`: `rpre` holds the elements
strictly before `i` reversed, `post` the elements from `i` on.  On a
cancellable pair both elements are removed and `i` is unchanged (the scan
continues at the element that followed the pair); otherwise `i += 1`. -/
def cancelGo : List Instruction → List Instruction → List Instruction
  | rpre, a :: b :: post =>
    if cancellable a b then cancelGo rpre post
    else cancelGo (a :: rpre) (b :: post)
  | rpre, post => rpre.reverse ++ post

/-- `main.rs::cancel` (the scan starts at `i = 0`). -/
def cancel (bf : List Instruction) : List Instruction :=
  cancelGo [] bf

/-- `main.rs::clearloop`, in zipper form.  The Rust loop walks `i` forward
while `i + 2 < len` examining the window `(bf[i], bf[i+1], bf[i+2])`.  On
`LoopOpen, IncVal, LoopEnd` or `LoopOpen, DecVal, LoopEnd` it overwrites
`bf[i]` with `ClearVal`, removes the other two, and leaves `i` unchanged;
otherwise `i += 1`. -/
def clearloopGo : List Instruction → List Instruction → List Instruction
  | rpre, a :: b :: c :: post =>
    match a, b, c with
    | .LoopOpen _, .IncVal, .LoopEnd _ => clearloopGo rpre (.ClearVal :: post)
    | .LoopOpen _, .DecVal, .LoopEnd _ => clearloopGo rpre (.ClearVal :: post)
    | _, _, _ => clearloopGo (a :: rpre) (b :: c :: post)
  | rpre, post => rpre.reverse ++ post
termination_by _ post => post.length
decreasing_by all_goals simp

/-- `main.rs::clearloop` (the scan starts at `i = 0`). -/
def clearloop (bf : List Instruction) : List Instruction :=
  clearloopGo [] bf

/-- The state of `main.rs::eval`: the 64-cell tape (byte values as naturals
below 256), the data pointer, the program counter, the bytes remaining on
the input stream and the bytes written to the output stream so far. -/
structure Config where
  tape : List Nat
  ptr : Nat
  pc : Nat
  input : List Nat
  output : List Nat
deriving DecidableEq, Repr

/-- Result of a run of `eval`: normal completion (`Ok(())`), an `io::Result`
error propagated by `?` (failed `read_exact` on an exhausted input), or an
uncaught panic (tape index out of bounds, or the debug-mode overflow panic
of `ptr -= 1` at 0).  Each carries the bytes written before stopping. -/
inductive Outcome where
  | ok : List Nat → Outcome
  | ioError : List Nat → Outcome
  | fault : List Nat → Outcome
deriving DecidableEq, Repr

/-- Instructions whose `main.rs::eval` arm indexes `tape[ptr]`; `IncPtr` and
`DecPtr` only touch `ptr` itself. -/
def accessesTape : Instruction → Bool
  | .IncPtr => false
  | .DecPtr => false
  | _ => true

/-- The initial evaluator state: `let mut tape = [0u8; 64]; let mut ptr = 0;
let mut pc = 0;` with a given input stream and no output yet. -/
def initConfig (input : List Nat) : Config :=
  ⟨List.replicate 64 0, 0, 0, input, []⟩

/-- `main.rs::eval`, fuelled (the Rust loop `while let Some(instr) =
bf.get(pc)` need not terminate; `none` means fuel ran out).  Each arm
mirrors the Rust arm, followed by `pc += 1`:

* `IncPtr`: `ptr += 1` (no tape access, no bound check);
* `DecPtr`: `ptr -= 1`, a `usize` subtraction whose overflow at 0 is a
  panic (modelled as `fault`);
* value/`ClearVal`/`Write`/loop arms index `tape[ptr]`, which panics when
  `ptr` is outside the 64-cell tape; values wrap modulo 256
  (`wrapping_add`/`wrapping_sub`);
* `Write` appends `tape[ptr]` to the output;
* `Read` first performs `read_exact`, which fails with an `io::Error` on an
  exhausted input (`?` aborts the run), and only then stores the byte in
  `tape[ptr]`;
* `LoopOpen(end)` jumps to `end + 1` when the cell is zero; `LoopEnd(open)`
  jumps to `open + 1` when it is non-zero. -/
def eval : Nat → List Instruction → Config → Option Outcome
  | 0, _, _ => none
  | fuel + 1, bf, c =>
    match bf[c.pc]? with
    | none => some (.ok c.output)
    | some instr =>
      match instr with
      | .IncPtr => eval fuel bf { c with ptr := c.ptr + 1, pc := c.pc + 1 }
      | .DecPtr =>
        if c.ptr = 0 then some (.fault c.output)
        else eval fuel bf { c with ptr := c.ptr - 1, pc := c.pc + 1 }
      | .IncVal =>
        if c.ptr < 64 then
          eval fuel bf { c with
            tape := c.tape.set c.ptr ((c.tape.getD c.ptr 0 + 1) % 256),
            pc := c.pc + 1 }
        else some (.fault c.output)
      | .DecVal =>
        if c.ptr < 64 then
          eval fuel bf { c with
            tape := c.tape.set c.ptr ((c.tape.getD c.ptr 0 + 255) % 256),
            pc := c.pc + 1 }
        else some (.fault c.output)
      | .ClearVal =>
        if c.ptr < 64 then
          eval fuel bf { c with tape := c.tape.set c.ptr 0, pc := c.pc + 1 }
        else some (.fault c.output)
      | .Write =>
        if c.ptr < 64 then
          eval fuel bf { c with
            output := c.output ++ [c.tape.getD c.ptr 0],
            pc := c.pc + 1 }
        else some (.fault c.output)
      | .Read =>
        match c.input with
        | [] => some (.ioError c.output)
        | b :: rest =>
          if c.ptr < 64 then
            eval fuel bf { c with
              tape := c.tape.set c.ptr b,
              input := rest,
              pc := c.pc + 1 }
          else some (.fault c.output)
      | .LoopOpen e =>
        if c.ptr < 64 then
          if c.tape.getD c.ptr 0 = 0 then eval fuel bf { c with pc := e + 1 }
          else eval fuel bf { c with pc := c.pc + 1 }
        else some (.fault c.output)
      | .LoopEnd o =>
        if c.ptr < 64 then
          if c.tape.getD c.ptr 0 ≠ 0 then eval fuel bf { c with pc := o + 1 }
          else eval fuel bf { c with pc := c.pc + 1 }
        else some (.fault c.output)

end Main

namespace Opt

theorem scanV_nil (post : List Instr) : scanV [] post = some post := by
  simp [scanV, scan]

theorem scanV_cons_nil (l : Instr) (rp : List Instr) : scanV (l :: rp) [] = none := by
  simp [scanV, scan]

theorem scanV_loop (l : Instr) (rp : List Instr) (body post' : List Instr) :
    scanV (l :: rp) (.Loop body :: post') =
      (cancel body).bind (fun b' => scanV rp (l :: .Loop b' :: post')) := by
  cases post' with
  | nil =>
    rw [scanV, scan.eq_3]
    simp only [isLoop]
    split
    · rename_i heq
      simp [cancel, heq]
    · rename_i br brp heq
      simp only [cancel, heq]
      cases hs : scan brp [br] with
      | none => simp [scanV, hs]
      | some bs =>
        simp only [hs, scanV, Option.map_some, Option.bind_some]
        cases hs2 : scan rp [l, .Loop bs.val] with
        | none => simp [hs2]
        | some rs => simp [hs2]
  | cons z post2 =>
    rw [scanV, scan.eq_4]
    simp only [isLoop]
    split
    · rename_i heq
      simp [cancel, heq]
    · rename_i br brp heq
      simp only [cancel, heq]
      cases hs : scan brp [br] with
      | none => simp [scanV, hs]
      | some bs =>
        simp only [hs, scanV, Option.map_some, Option.bind_some]
        cases hs2 : scan rp (l :: .Loop bs.val :: z :: post2) with
        | none => simp [hs2]
        | some rs => simp [hs2]

theorem scanV_pair_nil (l r : Instr) (rp : List Instr) (hL : isLoop r = none)
    (hc : cancellable l r = true) : scanV (l :: rp) [r] = none := by
  rw [scanV, scan.eq_3]
  split
  · rename_i body heq
    rw [hL] at heq
    exact absurd heq (by simp)
  · simp [hc, scanV]

theorem scanV_pair (l r z : Instr) (rp post'' : List Instr) (hL : isLoop r = none)
    (hc : cancellable l r = true) :
    scanV (l :: rp) (r :: z :: post'') = scanV (z :: rp) post'' := by
  rw [scanV, scan.eq_4]
  split
  · rename_i body heq
    rw [hL] at heq
    exact absurd heq (by simp)
  · rw [if_pos hc]
    cases hs : scan (z :: rp) post'' with
    | none => simp [scanV, hs]
    | some rs => simp [scanV, hs]

theorem scanV_step (l r : Instr) (rp post' : List Instr) (hL : isLoop r = none)
    (hc : cancellable l r = false) :
    scanV (l :: rp) (r :: post') = scanV rp (l :: r :: post') := by
  cases post' with
  | nil =>
    rw [scanV, scan.eq_3]
    split
    · rename_i body heq
      rw [hL] at heq
      exact absurd heq (by simp)
    · rw [if_neg (by simp [hc])]
      cases hs : scan rp [l, r] with
      | none => simp [scanV, hs]
      | some rs => simp [scanV, hs]
  | cons z post2 =>
    rw [scanV, scan.eq_4]
    split
    · rename_i body heq
      rw [hL] at heq
      exact absurd heq (by simp)
    · rw [if_neg (by simp [hc])]
      cases hs : scan rp (l :: r :: z :: post2) with
      | none => simp [scanV, hs]
      | some rs => simp [scanV, hs]

theorem cancellable_loop_right (x : Instr) (b : List Instr) :
    cancellable x (.Loop b) = false := by
  cases x <;> rfl

theorem cancellable_loop_left (b : List Instr) (y : Instr) :
    cancellable (.Loop b) y = false := by
  cases y <;> rfl

theorem normAt_singleton (x : Instr) : normAt [x] := by
  refine ⟨List.chain'_singleton x, ?_⟩
  intro b hb
  simp at hb

theorem scanV_size {rpre post r : List Instr} (h : scanV rpre post = some r) :
    sizeL r ≤ sizeL rpre + sizeL post := by
  unfold scanV at h
  cases hs : scan rpre post with
  | none => rw [hs] at h; simp at h
  | some s =>
    rw [hs] at h
    simp at h
    exact h ▸ s.property

theorem cancel_nil : cancel ([] : List Instr) = none := rfl

theorem cancel_ne_nil {t r : List Instr} (h : cancel t = some r) : t ≠ [] := by
  intro ht
  subst ht
  simp [cancel_nil] at h

theorem pairsOK_middle : ∀ (s : List Instr) (a b : Instr) (t : List Instr),
    pairsOK (s ++ a :: b :: t) → cancellable a b = false := by
  intro s
  induction s with
  | nil =>
    intro a b t h
    exact (List.chain'_cons.mp h).1
  | cons x s' ih =>
    intro a b t h
    rw [List.cons_append] at h
    exact ih a b t h.tail

theorem mem_tail_append_cons : ∀ (s : List Instr) (a x : Instr) (t : List Instr),
    x ∈ t → x ∈ (s ++ a :: t).tail := by
  intro s
  induction s with
  | nil => intro a x t hx; simpa using hx
  | cons s0 s' _ih =>
    intro a x t hx
    simp only [List.cons_append, List.tail_cons]
    simp [hx]

/-- Lemma B: on a `normAt` list, the scan walks left without changing
anything and returns the represented list. -/
theorem scanV_norm_id : ∀ (rpre post : List Instr), post ≠ [] →
    normAt (rpre.reverse ++ post) → scanV rpre post = some (rpre.reverse ++ post) := by
  intro rpre
  induction rpre with
  | nil =>
    intro post _hne _h
    simp [scanV_nil]
  | cons l rp ih =>
    intro post hne hnorm
    cases post with
    | nil => exact absurd rfl hne
    | cons p0 post' =>
      have hL : (l :: rp).reverse ++ p0 :: post' = rp.reverse ++ l :: p0 :: post' := by
        simp
      cases hiso : isLoop p0 with
      | some body =>
        have hp0 : p0 = .Loop body := isLoop_eq_some.mp hiso
        subst hp0
        have hmem : Instr.Loop body ∈ ((l :: rp).reverse ++ .Loop body :: post').tail := by
          rw [hL]
          exact mem_tail_append_cons rp.reverse l _ _ (by simp)
        have hfix := hnorm.2 body hmem
        rw [scanV_loop, hfix, Option.some_bind]
        rw [ih (l :: .Loop body :: post') (by simp) (by rw [← hL] at *; exact hL ▸ hnorm)]
        rw [hL]
      | none =>
        have hpair : cancellable l p0 = false := by
          apply pairsOK_middle rp.reverse l p0 post'
          have := hnorm.1
          rw [hL] at this
          exact this
        rw [scanV_step _ _ _ _ hiso hpair]
        rw [ih (l :: p0 :: post') (by simp) (by rw [hL] at hnorm; exact hnorm)]
        rw [hL]

/-- `cancel` is the identity on nonempty `normAt` lists. -/
theorem cancel_norm_id (r : List Instr) (h : normAt r) (hne : r ≠ []) :
    cancel r = some r := by
  obtain ⟨hd, tl, hrev⟩ : ∃ hd tl, r.reverse = hd :: tl := by
    cases hh : r.reverse with
    | nil => exact absurd (by simpa using congrArg List.reverse hh) hne
    | cons a b => exact ⟨a, b, rfl⟩
  have hr : r = tl.reverse ++ [hd] := by
    have := congrArg List.reverse hrev
    simpa using this
  unfold cancel
  rw [hrev]
  show scanV tl [hd] = some r
  rw [scanV_norm_id tl [hd] (by simp) (by rw [← hr]; exact h)]
  rw [← hr]

/-- Lemma A: a completed scan, starting from a state whose `post` part is
already normalized, produces a nonempty `normAt` list.  Strong induction on
total size, then on the scan-position measure. -/
theorem scanA : ∀ (N : Nat) (rpre post r : List Instr),
    sizeL rpre + sizeL post ≤ N → post ≠ [] → normAt post →
    scanV rpre post = some r → normAt r ∧ r ≠ [] := by
  intro N
  induction N using Nat.strong_induction_on with
  | _ N ihN =>
  suffices hM : ∀ (M : Nat) (rpre post r : List Instr),
      sizeL rpre + sizeL post ≤ N → 2 * rpre.length + post.length ≤ M →
      post ≠ [] → normAt post → scanV rpre post = some r → normAt r ∧ r ≠ [] by
    intro rpre post r h1 h2 h3 h4
    exact hM (2 * rpre.length + post.length) rpre post r h1 le_rfl h2 h3 h4
  intro M
  induction M using Nat.strong_induction_on with
  | _ M ihM =>
  intro rpre post r hsz hlen hne hnorm hscan
  cases rpre with
  | nil =>
    rw [scanV_nil] at hscan
    injection hscan with h
    subst h
    exact ⟨hnorm, hne⟩
  | cons l rp =>
    cases post with
    | nil => exact absurd rfl hne
    | cons p0 post' =>
      cases hiso : isLoop p0 with
      | some body =>
        have hp0 : p0 = .Loop body := isLoop_eq_some.mp hiso
        subst hp0
        rw [scanV_loop] at hscan
        cases hcb : cancel body with
        | none => rw [hcb] at hscan; simp at hscan
        | some b' =>
          rw [hcb, Option.some_bind] at hscan
          have hbody_ne : body ≠ [] := cancel_ne_nil hcb
          obtain ⟨br, brp, hrev⟩ : ∃ br brp, body.reverse = br :: brp := by
            cases hh : body.reverse with
            | nil => exact absurd (by simpa using congrArg List.reverse hh) hbody_ne
            | cons a bb => exact ⟨a, bb, rfl⟩
          have hcb2 : scanV brp [br] = some b' := by
            have h0 := hcb
            unfold cancel at h0
            rw [hrev] at h0
            exact h0
          have hszbody : sizeL brp + sizeL [br] = sizeL body := by
            have h1 := sizeL_reverse body
            rw [hrev] at h1
            simp only [sizeL_cons, sizeL_nil] at h1 ⊢
            omega
          have hlp := sizeI_pos l
          have hbound : sizeL body < N := by
            have h2 : sizeL (l :: rp) + sizeL (.Loop body :: post') ≤ N := hsz
            simp only [sizeL_cons, sizeI_loop] at h2
            omega
          have hres1 := ihN (sizeL body) hbound brp [br] b' (by omega) (by simp)
              (normAt_singleton br) hcb2
          have hfixb' : cancel b' = some b' := cancel_norm_id b' hres1.1 hres1.2
          have hnorm' : normAt (l :: .Loop b' :: post') := by
            constructor
            · apply List.chain'_cons.mpr
              refine ⟨cancellable_loop_right l b', ?_⟩
              cases post' with
              | nil => exact List.chain'_singleton _
              | cons q t =>
                apply List.chain'_cons.mpr
                refine ⟨cancellable_loop_left b' q, ?_⟩
                exact (List.chain'_cons.mp hnorm.1).2
            · intro b hb
              simp only [List.tail_cons] at hb
              rcases List.mem_cons.mp hb with h | h
              · injection h with h2
                subst h2
                exact hfixb'
              · exact hnorm.2 b (by simpa using h)
          have hszb' : sizeL b' ≤ sizeL body := by
            have h3 := scanV_size hcb2
            omega
          refine ihM (2 * rp.length + (l :: .Loop b' :: post').length) ?_
            rp (l :: .Loop b' :: post') r ?_ le_rfl (by simp) hnorm' hscan
          · simp only [List.length_cons] at hlen ⊢
            omega
          · simp only [sizeL_cons, sizeI_loop] at hsz ⊢
            omega
      | none =>
        cases hc : cancellable l p0 with
        | true =>
          cases post' with
          | nil =>
            rw [scanV_pair_nil l p0 rp hiso hc] at hscan
            simp at hscan
          | cons z post'' =>
            rw [scanV_pair l p0 z rp post'' hiso hc] at hscan
            cases post'' with
            | nil =>
              rw [scanV_cons_nil] at hscan
              simp at hscan
            | cons q t =>
              have hil := sizeI_pos l
              have hip := sizeI_pos p0
              have hlt : sizeL (z :: rp) + sizeL (q :: t) < N := by
                simp only [sizeL_cons] at hsz ⊢
                omega
              have hnorm'' : normAt (q :: t) := by
                constructor
                · exact (List.chain'_cons.mp (List.chain'_cons.mp hnorm.1).2).2
                · intro b hb
                  apply hnorm.2 b
                  simp only [List.tail_cons] at hb ⊢
                  exact List.mem_cons_of_mem z (List.mem_cons_of_mem q hb)
              exact ihN _ hlt (z :: rp) (q :: t) r le_rfl (by simp) hnorm'' hscan
        | false =>
          rw [scanV_step l p0 rp post' hiso hc] at hscan
          have hnorm' : normAt (l :: p0 :: post') := by
            constructor
            · exact List.chain'_cons.mpr ⟨hc, hnorm.1⟩
            · intro b hb
              simp only [List.tail_cons] at hb
              rcases List.mem_cons.mp hb with h | h
              · exact absurd h.symm (isLoop_eq_none.mp hiso b)
              · exact hnorm.2 b (by simpa using h)
          refine ihM (2 * rp.length + (l :: p0 :: post').length) ?_
            rp (l :: p0 :: post') r ?_ le_rfl (by simp) hnorm' hscan
          · simp only [List.length_cons] at hlen ⊢
            omega
          · simp only [sizeL_cons] at hsz ⊢
            omega

end Opt

/-- C3: cancellation is idempotent.  `cancel` either panics (`none`) — in
which case a second run has nothing to act on — or returns a tree it maps
to itself: composing `cancel` with itself (Kleisli composition on the
panic monad) equals one run of `cancel`. -/
theorem spec_C3 (t : List Instr) :
    (Opt.cancel t).bind Opt.cancel = Opt.cancel t := by
  cases hct : Opt.cancel t with
  | none => rfl
  | some r =>
    rw [Option.some_bind]
    obtain ⟨hd, tl, hrev⟩ : ∃ hd tl, t.reverse = hd :: tl := by
      cases hh : t.reverse with
      | nil => exact absurd (by simpa using congrArg List.reverse hh) (Opt.cancel_ne_nil hct)
      | cons a b => exact ⟨a, b, rfl⟩
    have hsc : Opt.scanV tl [hd] = some r := by
      have h0 := hct
      unfold Opt.cancel at h0
      rw [hrev] at h0
      exact h0
    have hres := Opt.scanA (Opt.sizeL tl + Opt.sizeL [hd]) tl [hd] r le_rfl (by simp)
      (Opt.normAt_singleton hd) hsc
    exact Opt.cancel_norm_id r hres.1 hres.2

namespace Opt

theorem isClearBody_iff (b : List Instr) :
    isClearBody b = true ↔ b = [.IncVal] ∨ b = [.DecVal] := by
  cases b with
  | nil => simp [isClearBody]
  | cons x xs =>
    cases xs with
    | nil => cases x <;> simp [isClearBody]
    | cons y ys => cases x <;> simp [isClearBody]

theorem isClearBody_clearloopL (b : List Instr) :
    isClearBody (clearloopL b) = isClearBody b := by
  cases b with
  | nil => rfl
  | cons x xs =>
    cases xs with
    | nil =>
      cases x with
      | Loop bb =>
        simp only [clearloopL, clearloopI]
        split <;> simp [isClearBody]
      | _ => simp [clearloopL, clearloopI]
    | cons y ys =>
      simp only [clearloopL]
      cases hx : clearloopI x <;> cases x <;> simp [isClearBody]

theorem clearloopI_eq_self {x : Instr} (h : ∀ b, x ≠ .Loop b) : clearloopI x = x := by
  cases x with
  | Loop b => exact absurd rfl (h b)
  | _ => simp [clearloopI]

theorem clearloopL_idem_aux : ∀ (N : Nat) (l : List Instr), sizeL l ≤ N →
    clearloopL (clearloopL l) = clearloopL l := by
  intro N
  induction N using Nat.strong_induction_on with
  | _ N ih =>
  intro l hl
  cases l with
  | nil => rfl
  | cons x xs =>
    have hx := sizeI_pos x
    simp only [sizeL_cons] at hl
    have hxs : clearloopL (clearloopL xs) = clearloopL xs :=
      ih (sizeL xs) (by omega) xs le_rfl
    simp only [clearloopL]
    rw [hxs]
    have hhead : clearloopI (clearloopI x) = clearloopI x := by
      cases x with
      | Loop b =>
        simp only [clearloopI]
        by_cases hcb : isClearBody b
        · rw [if_pos hcb]
          simp [clearloopI]
        · rw [if_neg hcb]
          simp only [clearloopI]
          rw [isClearBody_clearloopL b, if_neg hcb]
          have hb : clearloopL (clearloopL b) = clearloopL b := by
            have hbi : sizeI (Instr.Loop b) = 1 + sizeL b := sizeI_loop b
            exact ih (sizeL b) (by omega) b le_rfl
          rw [hb]
      | _ => simp [clearloopI]
    rw [hhead]

end Opt

/-- C4: clear-loop recognition fires exactly on a `Loop` whose body is the
single instruction `IncVal` or the single instruction `DecVal`; every other
`Loop` stays a `Loop` and the pass only recurses into its body; and running
the pass twice equals running it once. -/
theorem spec_C4 :
    (Opt.clearloopI (.Loop [.IncVal]) = .ClearVal) ∧
    (Opt.clearloopI (.Loop [.DecVal]) = .ClearVal) ∧
    (∀ b : List Instr, b ≠ [.IncVal] → b ≠ [.DecVal] →
      Opt.clearloopI (.Loop b) = .Loop (Opt.clearloopL b)) ∧
    (∀ l : List Instr, Opt.clearloopL (Opt.clearloopL l) = Opt.clearloopL l) := by
  refine ⟨by simp [Opt.clearloopI, Opt.isClearBody], by simp [Opt.clearloopI, Opt.isClearBody], ?_, ?_⟩
  · intro b h1 h2
    simp only [Opt.clearloopI]
    rw [if_neg]
    intro hcb
    rcases (Opt.isClearBody_iff b).mp hcb with h | h
    · exact h1 h
    · exact h2 h
  · intro l
    exact Opt.clearloopL_idem_aux (Opt.sizeL l) l le_rfl

/-- C4 witness: the pass leaves `[.]` as a loop (recursing into its body)
and is idempotent on the concrete tree `[[+]-]`. -/
theorem spec_C4_witness :
    Opt.clearloopI (.Loop [.Write]) = .Loop (Opt.clearloopL [.Write]) ∧
    Opt.clearloopL (Opt.clearloopL [.Loop [.Loop [.IncVal], .DecVal]]) =
      Opt.clearloopL [.Loop [.Loop [.IncVal], .DecVal]] := by
  constructor
  · exact spec_C4.2.2.1 [.Write] (by simp) (by simp)
  · exact spec_C4.2.2.2 [.Loop [.Loop [.IncVal], .DecVal]]

/-- C2: on the two-instruction program `IncPtr, DecPtr` (source `><`) the
tree-based `opt.rs::cancel` removes the pair but re-enters its loop with
`i = 1` on the now-empty vector, an out-of-bounds index (a panic, `none`) —
it does not return the empty sequence.  The flat `main.rs::cancel` does
return the empty sequence. -/
theorem spec_C2 :
    Opt.cancel [Instr.IncPtr, Instr.DecPtr] = none ∧
    Main.cancel [Main.Instruction.IncPtr, Main.Instruction.DecPtr] = [] := by
  constructor
  · have h1 : [Instr.IncPtr, Instr.DecPtr].reverse = [Instr.DecPtr, Instr.IncPtr] := rfl
    unfold Opt.cancel
    rw [h1]
    show Opt.scanV [Instr.IncPtr] [Instr.DecPtr] = none
    exact Opt.scanV_pair_nil _ _ _ rfl rfl
  · rfl

/-- C10: the tree-based cancellation pass faults on an empty sequence (the
initial `bf.len() - 1` underflows): as the whole program, and when the scan
recurses into a `Loop` with empty body — such as the `Loop []` that source
`[]` parses to — the inner `cancel` faults the same way. -/
theorem spec_C10 :
    Opt.cancel ([] : List Instr) = none ∧
    Opt.cancel [Instr.Write, Instr.Loop []] = none ∧
    Parser.parse (lex ['[', ']']) = .ok [Instr.Loop []] := by
  refine ⟨rfl, ?_, ?_⟩
  · have h1 : [Instr.Write, Instr.Loop []].reverse = [Instr.Loop [], Instr.Write] := rfl
    unfold Opt.cancel
    rw [h1]
    show Opt.scanV [Instr.Write] [Instr.Loop []] = none
    rw [Opt.scanV_loop]
    rfl
  · show Parser.parse [Token.LSquare, Token.RSquare] = .ok [Instr.Loop []]
    simp [Parser.parse, Parser.parseLoop]

namespace Parser

theorem parseLoopV_length {ts : List Token} {body : List Instr} {rest : List Token}
    (h : parseLoopV ts = .ok (body, rest)) : rest.length < ts.length := by
  unfold parseLoopV at h
  cases hs : parseLoop ts with
  | error e => rw [hs] at h; simp [Except.map] at h
  | ok p =>
    rw [hs] at h
    simp [Except.map] at h
    have := p.property
    rw [h] at this
    exact this

theorem parseLoopV_nil : parseLoopV [] = .error .MissingLoopEnd := by
  unfold parseLoopV
  simp [parseLoop, Except.map]

theorem parseLoopV_rsquare (ts : List Token) :
    parseLoopV (.RSquare :: ts) = .ok ([], ts) := by
  unfold parseLoopV
  simp [parseLoop, Except.map]

theorem parseLoopV_simple {t : Token} {i : Instr} (h : simpleInstr t = some i)
    (ts : List Token) :
    parseLoopV (t :: ts) =
      (parseLoopV ts).map (fun p => (i :: p.1, p.2)) := by
  cases t <;> simp [simpleInstr] at h <;> subst h <;>
    · unfold parseLoopV
      cases hs : parseLoop ts with
      | error e => simp [parseLoop, hs, Except.map]
      | ok p => simp [parseLoop, hs, Except.map]

theorem parseLoopV_lsquare (ts : List Token) :
    parseLoopV (.LSquare :: ts) =
      (parseLoopV ts).bind (fun p =>
        (parseLoopV p.2).map (fun q => (.Loop p.1 :: q.1, q.2))) := by
  unfold parseLoopV
  cases hs : parseLoop ts with
  | error e => simp [parseLoop, hs, Except.map, Except.bind]
  | ok p =>
    cases hs2 : parseLoop p.val.2 with
    | error e => simp [parseLoop, hs, hs2, Except.map, Except.bind]
    | ok q => simp [parseLoop, hs, hs2, Except.map, Except.bind]

theorem parse_nil : parse [] = .ok [] := by
  simp [parse]

theorem parse_rsquare (ts : List Token) :
    parse (.RSquare :: ts) = .error .MissingLoopOpen := by
  simp [parse]

theorem parse_simple {t : Token} {i : Instr} (h : simpleInstr t = some i)
    (ts : List Token) :
    parse (t :: ts) = (parse ts).map (fun is => i :: is) := by
  cases t <;> simp [simpleInstr] at h <;> subst h <;>
    · cases hs : parse ts with
      | error e => simp [parse, hs, Except.map]
      | ok p => simp [parse, hs, Except.map]

theorem parse_lsquare (ts : List Token) :
    parse (.LSquare :: ts) =
      (parseLoopV ts).bind (fun p => (parse p.2).map (fun is => .Loop p.1 :: is)) := by
  unfold parseLoopV
  cases hs : parseLoop ts with
  | error e => simp [parse, hs, Except.map, Except.bind]
  | ok p =>
    cases hs2 : parse p.val.2 with
    | error e => simp [parse, hs, hs2, Except.map, Except.bind]
    | ok q => simp [parse, hs, hs2, Except.map, Except.bind]

end Parser

theorem scanCls_simple {t : Token} {i : Instr} (h : Parser.simpleInstr t = some i) :
    ∀ (ts : List Token) (d : Nat), scanCls (t :: ts) d = scanCls ts d := by
  cases t <;> simp [Parser.simpleInstr] at h <;> (intro ts d; rfl)

theorem scanCls_lsquare (ts : List Token) (d : Nat) :
    scanCls (.LSquare :: ts) d = scanCls ts (d + 1) := rfl

theorem scanCls_rsquare_succ (ts : List Token) (d : Nat) :
    scanCls (.RSquare :: ts) (d + 1) = scanCls ts d := by
  simp [scanCls]

theorem scanCls_rsquare_zero (ts : List Token) :
    scanCls (.RSquare :: ts) 0 = none := by
  simp [scanCls]

/-- The five parser/depth-scan correspondences, by strong induction on the
length of the token stream: a successful `parse_loop` consumes exactly one
bracket level, `parse_loop` can only fail with `MissingLoopEnd` and only
when the depth never returns to the caller's level, and `parse`'s three
outcomes land in the three disjoint depth-scan classes. -/
theorem parser_scan_aux : ∀ (n : Nat) (ts : List Token), ts.length ≤ n →
    (∀ body rest, Parser.parseLoopV ts = .ok (body, rest) →
        ∀ d, scanCls ts (d + 1) = scanCls rest d) ∧
    (∀ e, Parser.parseLoopV ts = .error e → e = .MissingLoopEnd ∧
        ∀ d, ∃ m, scanCls ts (d + 1) = some m ∧ d + 1 ≤ m) ∧
    (∀ p, Parser.parse ts = .ok p → scanCls ts 0 = some 0) ∧
    (Parser.parse ts = .error .MissingLoopOpen → scanCls ts 0 = none) ∧
    (Parser.parse ts = .error .MissingLoopEnd → ∃ m, scanCls ts 0 = some (m + 1)) := by
  intro n
  induction n using Nat.strong_induction_on with
  | _ n ih =>
  intro ts hts
  cases ts with
  | nil =>
    refine ⟨?_, ?_, ?_, ?_, ?_⟩
    · intro body rest h
      rw [Parser.parseLoopV_nil] at h
      simp at h
    · intro e h
      rw [Parser.parseLoopV_nil] at h
      simp at h
      exact ⟨h.symm, fun d => ⟨d + 1, rfl, le_rfl⟩⟩
    · intro p _h
      rfl
    · intro h
      rw [Parser.parse_nil] at h
      simp at h
    · intro h
      rw [Parser.parse_nil] at h
      simp at h
  | cons t ts' =>
    have hts' : ts'.length < n := by
      simp only [List.length_cons] at hts
      omega
    have IH := ih ts'.length hts' ts' le_rfl
    have hcase : (∃ i, Parser.simpleInstr t = some i) ∨ t = .LSquare ∨ t = .RSquare := by
      cases t <;> simp [Parser.simpleInstr]
    rcases hcase with ⟨i, hi⟩ | rfl | rfl
    · -- a simple symbol: the scan is unchanged, results map through
      refine ⟨?_, ?_, ?_, ?_, ?_⟩
      · intro body rest h d
        rw [Parser.parseLoopV_simple hi] at h
        cases hplv : Parser.parseLoopV ts' with
        | error e => rw [hplv] at h; simp [Except.map] at h
        | ok p =>
          obtain ⟨body0, rest0⟩ := p
          rw [hplv] at h
          simp [Except.map] at h
          rw [scanCls_simple hi, ← h.2]
          exact IH.1 body0 rest0 hplv d
      · intro e h
        rw [Parser.parseLoopV_simple hi] at h
        cases hplv : Parser.parseLoopV ts' with
        | ok p => rw [hplv] at h; simp [Except.map] at h
        | error e0 =>
          rw [hplv] at h
          simp [Except.map] at h
          subst h
          obtain ⟨he, hsc⟩ := IH.2.1 e0 hplv
          refine ⟨he, fun d => ?_⟩
          rw [scanCls_simple hi]
          exact hsc d
      · intro p h
        rw [Parser.parse_simple hi] at h
        cases hp : Parser.parse ts' with
        | error e => rw [hp] at h; simp [Except.map] at h
        | ok q =>
          rw [scanCls_simple hi]
          exact IH.2.2.1 q hp
      · intro h
        rw [Parser.parse_simple hi] at h
        cases hp : Parser.parse ts' with
        | ok q => rw [hp] at h; simp [Except.map] at h
        | error e =>
          rw [hp] at h
          simp [Except.map] at h
          subst h
          rw [scanCls_simple hi]
          exact IH.2.2.2.1 hp
      · intro h
        rw [Parser.parse_simple hi] at h
        cases hp : Parser.parse ts' with
        | ok q => rw [hp] at h; simp [Except.map] at h
        | error e =>
          rw [hp] at h
          simp [Except.map] at h
          subst h
          rw [scanCls_simple hi]
          exact IH.2.2.2.2 hp
    · -- `[`: a nested parse_loop, then the continuation on what it left
      refine ⟨?_, ?_, ?_, ?_, ?_⟩
      · intro body rest h d
        rw [Parser.parseLoopV_lsquare] at h
        cases hplv : Parser.parseLoopV ts' with
        | error e => rw [hplv] at h; simp [Except.bind] at h
        | ok p =>
          obtain ⟨body0, rest0⟩ := p
          rw [hplv] at h
          simp only [Except.bind] at h
          cases hplv2 : Parser.parseLoopV rest0 with
          | error e => rw [hplv2] at h; simp [Except.map] at h
          | ok q =>
            obtain ⟨is2, rest2⟩ := q
            rw [hplv2] at h
            simp [Except.map] at h
            have hr0 : rest0.length < n := by
              have := Parser.parseLoopV_length hplv
              omega
            rw [scanCls_lsquare, IH.1 body0 rest0 hplv (d + 1), ← h.2]
            exact (ih rest0.length hr0 rest0 le_rfl).1 is2 rest2 hplv2 d
      · intro e h
        rw [Parser.parseLoopV_lsquare] at h
        cases hplv : Parser.parseLoopV ts' with
        | error e0 =>
          rw [hplv] at h
          simp only [Except.bind] at h
          simp at h
          subst h
          obtain ⟨he, hsc⟩ := IH.2.1 e0 hplv
          refine ⟨he, fun d => ?_⟩
          obtain ⟨m, hm, hdm⟩ := hsc (d + 1)
          rw [scanCls_lsquare]
          exact ⟨m, hm, by omega⟩
        | ok p =>
          obtain ⟨body0, rest0⟩ := p
          rw [hplv] at h
          simp only [Except.bind] at h
          cases hplv2 : Parser.parseLoopV rest0 with
          | ok q => rw [hplv2] at h; simp [Except.map] at h
          | error e0 =>
            rw [hplv2] at h
            simp [Except.map] at h
            subst h
            have hr0 : rest0.length < n := by
              have := Parser.parseLoopV_length hplv
              omega
            obtain ⟨he, hsc⟩ := (ih rest0.length hr0 rest0 le_rfl).2.1 e0 hplv2
            refine ⟨he, fun d => ?_⟩
            rw [scanCls_lsquare, IH.1 body0 rest0 hplv (d + 1)]
            exact hsc d
      · intro p h
        rw [Parser.parse_lsquare] at h
        cases hplv : Parser.parseLoopV ts' with
        | error e => rw [hplv] at h; simp [Except.bind] at h
        | ok q =>
          obtain ⟨body0, rest0⟩ := q
          rw [hplv] at h
          simp only [Except.bind] at h
          cases hp2 : Parser.parse rest0 with
          | error e => rw [hp2] at h; simp [Except.map] at h
          | ok is2 =>
            have hr0 : rest0.length < n := by
              have := Parser.parseLoopV_length hplv
              omega
            rw [scanCls_lsquare, IH.1 body0 rest0 hplv 0]
            exact (ih rest0.length hr0 rest0 le_rfl).2.2.1 is2 hp2
      · intro h
        rw [Parser.parse_lsquare] at h
        cases hplv : Parser.parseLoopV ts' with
        | error e0 =>
          rw [hplv] at h
          simp [Except.bind] at h
          obtain ⟨he, _⟩ := IH.2.1 e0 hplv
          rw [he] at h
          simp at h
        | ok q =>
          obtain ⟨body0, rest0⟩ := q
          rw [hplv] at h
          simp only [Except.bind] at h
          cases hp2 : Parser.parse rest0 with
          | ok is2 => rw [hp2] at h; simp [Except.map] at h
          | error e0 =>
            rw [hp2] at h
            simp [Except.map] at h
            subst h
            have hr0 : rest0.length < n := by
              have := Parser.parseLoopV_length hplv
              omega
            rw [scanCls_lsquare, IH.1 body0 rest0 hplv 0]
            exact (ih rest0.length hr0 rest0 le_rfl).2.2.2.1 hp2
      · intro h
        rw [Parser.parse_lsquare] at h
        cases hplv : Parser.parseLoopV ts' with
        | error e0 =>
          rw [hplv] at h
          simp [Except.bind] at h
          obtain ⟨_, hsc⟩ := IH.2.1 e0 hplv
          obtain ⟨m, hm, hdm⟩ := hsc 0
          rw [scanCls_lsquare]
          exact ⟨m - 1, by rw [hm]; congr 1; omega⟩
        | ok q =>
          obtain ⟨body0, rest0⟩ := q
          rw [hplv] at h
          simp only [Except.bind] at h
          cases hp2 : Parser.parse rest0 with
          | ok is2 => rw [hp2] at h; simp [Except.map] at h
          | error e0 =>
            rw [hp2] at h
            simp [Except.map] at h
            subst h
            have hr0 : rest0.length < n := by
              have := Parser.parseLoopV_length hplv
              omega
            rw [scanCls_lsquare, IH.1 body0 rest0 hplv 0]
            exact (ih rest0.length hr0 rest0 le_rfl).2.2.2.2 hp2
    · -- `]`: parse_loop returns, parse errors
      refine ⟨?_, ?_, ?_, ?_, ?_⟩
      · intro body rest h d
        rw [Parser.parseLoopV_rsquare] at h
        simp at h
        rw [scanCls_rsquare_succ, h.2]
      · intro e h
        rw [Parser.parseLoopV_rsquare] at h
        simp at h
      · intro p h
        rw [Parser.parse_rsquare] at h
        simp at h
      · intro _h
        exact scanCls_rsquare_zero ts'
      · intro h
        rw [Parser.parse_rsquare] at h
        simp at h

/-- C5: the parser fails with `MissingLoopOpen` (the spec's
`UnmatchedLoopClose`) exactly when some loop-close token occurs at depth 0;
it fails with `MissingLoopEnd` (the spec's `UnmatchedLoopOpen`) exactly when
no close is unmatched but some `[` is still open at the end of the stream;
and it returns a program exactly on balanced streams.  The three depth-scan
classes are exhaustive and disjoint, so these two errors are the parser's
only failure modes. -/
theorem spec_C5 (ts : List Token) :
    (Parser.parse ts = .error .MissingLoopOpen ↔ scanCls ts 0 = none) ∧
    (Parser.parse ts = .error .MissingLoopEnd ↔ ∃ m, scanCls ts 0 = some (m + 1)) ∧
    ((∃ p, Parser.parse ts = .ok p) ↔ scanCls ts 0 = some 0) := by
  obtain ⟨_, _, hok, hopen, hend⟩ := parser_scan_aux ts.length ts le_rfl
  refine ⟨⟨hopen, ?_⟩, ⟨hend, ?_⟩, ⟨fun hp => ?_, ?_⟩⟩
  · intro hsc
    cases hp : Parser.parse ts with
    | ok p =>
      rw [hok p hp] at hsc
      simp at hsc
    | error e =>
      cases e with
      | MissingLoopOpen => rfl
      | MissingLoopEnd =>
        obtain ⟨m, hm⟩ := hend hp
        rw [hm] at hsc
        simp at hsc
  · intro hsc
    obtain ⟨m, hm⟩ := hsc
    cases hp : Parser.parse ts with
    | ok p =>
      rw [hok p hp] at hm
      simp at hm
    | error e =>
      cases e with
      | MissingLoopEnd => rfl
      | MissingLoopOpen =>
        rw [hopen hp] at hm
        simp at hm
  · obtain ⟨p, hp⟩ := hp
    exact hok p hp
  · intro hsc
    cases hp : Parser.parse ts with
    | ok p => exact ⟨p, rfl⟩
    | error e =>
      cases e with
      | MissingLoopOpen =>
        rw [hopen hp] at hsc
        simp at hsc
      | MissingLoopEnd =>
        obtain ⟨m, hm⟩ := hend hp
        rw [hm] at hsc
        simp at hsc

/-- C5 witness: the single token `]` fails with `MissingLoopOpen`, by the
theorem's first equivalence at the stray-close scan. -/
theorem spec_C5_witness :
    Parser.parse [Token.RSquare] = .error .MissingLoopOpen :=
  (spec_C5 [Token.RSquare]).1.mpr rfl

theorem leavesL_nil : leavesL [] = 0 := rfl

theorem leavesL_cons (x : Instr) (xs : List Instr) :
    leavesL (x :: xs) = leavesI x + leavesL xs := rfl

theorem leavesI_simple {t : Token} {i : Instr} (h : Parser.simpleInstr t = some i) :
    leavesI i = 1 := by
  cases t <;> simp [Parser.simpleInstr] at h <;> subst h <;> rfl

theorem isSimple_of_some {t : Token} {i : Instr} (h : Parser.simpleInstr t = some i) :
    isSimple t = true := by
  simp [isSimple, h]

theorem isSimple_lsquare : isSimple .LSquare = false := rfl

theorem simpleCount_cons_true {t : Token} {ts : List Token} (h : isSimple t = true) :
    simpleCount (t :: ts) = simpleCount ts + 1 := by
  simp [simpleCount, List.countP_cons, h]

theorem simpleCount_cons_false {t : Token} {ts : List Token} (h : isSimple t = false) :
    simpleCount (t :: ts) = simpleCount ts := by
  simp [simpleCount, List.countP_cons, h]

theorem isSimple_rsquare : isSimple .RSquare = false := rfl

/-- Leaf counting against the parser, by strong induction on the stream:
a successful `parse_loop` yields exactly the simple tokens it consumed as
leaves, and a successful `parse` yields one leaf per simple token. -/
theorem parser_leaves_aux : ∀ (n : Nat) (ts : List Token), ts.length ≤ n →
    (∀ body rest, Parser.parseLoopV ts = .ok (body, rest) →
        leavesL body + simpleCount rest = simpleCount ts) ∧
    (∀ p, Parser.parse ts = .ok p → leavesL p = simpleCount ts) := by
  intro n
  induction n using Nat.strong_induction_on with
  | _ n ih =>
  intro ts hts
  cases ts with
  | nil =>
    constructor
    · intro body rest h
      rw [Parser.parseLoopV_nil] at h
      simp at h
    · intro p h
      rw [Parser.parse_nil] at h
      simp at h
      subst h
      rfl
  | cons t ts' =>
    have hts' : ts'.length < n := by
      simp only [List.length_cons] at hts
      omega
    have IH := ih ts'.length hts' ts' le_rfl
    have hcase : (∃ i, Parser.simpleInstr t = some i) ∨ t = .LSquare ∨ t = .RSquare := by
      cases t <;> simp [Parser.simpleInstr]
    rcases hcase with ⟨i, hi⟩ | rfl | rfl
    · constructor
      · intro body rest h
        rw [Parser.parseLoopV_simple hi] at h
        cases hplv : Parser.parseLoopV ts' with
        | error e => rw [hplv] at h; simp [Except.map] at h
        | ok p =>
          obtain ⟨body0, rest0⟩ := p
          rw [hplv] at h
          simp [Except.map] at h
          rw [← h.1, ← h.2, leavesL_cons, leavesI_simple hi,
            simpleCount_cons_true (isSimple_of_some hi)]
          have := IH.1 body0 rest0 hplv
          omega
      · intro p h
        rw [Parser.parse_simple hi] at h
        cases hp : Parser.parse ts' with
        | error e => rw [hp] at h; simp [Except.map] at h
        | ok q =>
          rw [hp] at h
          simp [Except.map] at h
          rw [← h, leavesL_cons, leavesI_simple hi,
            simpleCount_cons_true (isSimple_of_some hi)]
          have := IH.2 q hp
          omega
    · constructor
      · intro body rest h
        rw [Parser.parseLoopV_lsquare] at h
        cases hplv : Parser.parseLoopV ts' with
        | error e => rw [hplv] at h; simp [Except.bind] at h
        | ok p =>
          obtain ⟨body0, rest0⟩ := p
          rw [hplv] at h
          simp only [Except.bind] at h
          cases hplv2 : Parser.parseLoopV rest0 with
          | error e => rw [hplv2] at h; simp [Except.map] at h
          | ok q =>
            obtain ⟨is2, rest2⟩ := q
            rw [hplv2] at h
            simp [Except.map] at h
            have hr0 : rest0.length < n := by
              have := Parser.parseLoopV_length hplv
              omega
            have e1 := IH.1 body0 rest0 hplv
            have e2 := (ih rest0.length hr0 rest0 le_rfl).1 is2 rest2 hplv2
            rw [← h.1, ← h.2, leavesL_cons, simpleCount_cons_false isSimple_lsquare]
            have e3 : leavesI (.Loop body0) = leavesL body0 := rfl
            rw [e3]
            omega
      · intro p h
        rw [Parser.parse_lsquare] at h
        cases hplv : Parser.parseLoopV ts' with
        | error e => rw [hplv] at h; simp [Except.bind] at h
        | ok q =>
          obtain ⟨body0, rest0⟩ := q
          rw [hplv] at h
          simp only [Except.bind] at h
          cases hp2 : Parser.parse rest0 with
          | error e => rw [hp2] at h; simp [Except.map] at h
          | ok is2 =>
            rw [hp2] at h
            simp [Except.map] at h
            have hr0 : rest0.length < n := by
              have := Parser.parseLoopV_length hplv
              omega
            have e1 := IH.1 body0 rest0 hplv
            have e2 := (ih rest0.length hr0 rest0 le_rfl).2 is2 hp2
            rw [← h, leavesL_cons, simpleCount_cons_false isSimple_lsquare]
            have e3 : leavesI (.Loop body0) = leavesL body0 := rfl
            rw [e3]
            omega
    · constructor
      · intro body rest h
        rw [Parser.parseLoopV_rsquare] at h
        simp at h
        rw [h.1, ← h.2, leavesL_nil, simpleCount_cons_false isSimple_rsquare]
        omega
      · intro p h
        rw [Parser.parse_rsquare] at h
        simp at h

theorem simpleCount_lex (s : List Char) :
    simpleCount (lex s) = s.countP charSimple := by
  induction s with
  | nil => rfl
  | cons c cs ih =>
    cases htc : tokOf c with
    | none =>
      have h1 : lex (c :: cs) = lex cs := by simp [lex, List.filterMap_cons, htc]
      have h2 : charSimple c = false := by simp [charSimple, htc]
      rw [h1, List.countP_cons, h2, ih]
      simp
    | some t =>
      have h1 : lex (c :: cs) = t :: lex cs := by simp [lex, List.filterMap_cons, htc]
      have h2 : charSimple c = isSimple t := by simp [charSimple, htc]
      simp only [simpleCount] at ih ⊢
      rw [h1, List.countP_cons, List.countP_cons, h2, ih]

/-- C6: for every source text whose brackets are properly nested (the
bracket-depth scan of its token stream ends balanced with no stray close),
parsing succeeds and the tree's total leaf count equals the number of
occurrences of the six non-bracket symbol characters; every other character
contributes nothing (the lexer drops it). -/
theorem spec_C6 (s : List Char) (h : scanCls (lex s) 0 = some 0) :
    ∃ p, Parser.parse (lex s) = .ok p ∧ leavesL p = s.countP charSimple := by
  obtain ⟨_, hok⟩ := parser_leaves_aux (lex s).length (lex s) le_rfl
  obtain ⟨_, _, hokc, hopen, hend⟩ := parser_scan_aux (lex s).length (lex s) le_rfl
  cases hp : Parser.parse (lex s) with
  | error e =>
    cases e with
    | MissingLoopOpen =>
      rw [hopen hp] at h
      simp at h
    | MissingLoopEnd =>
      obtain ⟨m, hm⟩ := hend hp
      rw [hm] at h
      simp at h
  | ok p =>
    refine ⟨p, rfl, ?_⟩
    rw [hok p hp, simpleCount_lex]

/-- C6 witness: the source `a[+.]b-` is properly nested; it parses and its
tree has 4 leaves, the number of its non-bracket symbol characters. -/
theorem spec_C6_witness :
    ∃ p, Parser.parse (lex ['a', '[', '+', '.', ']', 'b', '-']) = .ok p ∧
      leavesL p = ['a', '[', '+', '.', ']', 'b', '-'].countP charSimple :=
  spec_C6 ['a', '[', '+', '.', ']', 'b', '-'] rfl

/-- C1 (the flat pipeline of `main.rs`, whose own TODO comments say the
optimizer breaks jump offsets): on source `><[.].` with empty input, the
parsed program runs to completion within tape bounds and outputs the single
byte 0, but after `cancel` (which removes the `><` pair without fixing the
stored offsets) and `clearloop` the program's `LoopOpen 4` jumps past the
end and the run outputs nothing — optimization changes observable output. -/
theorem spec_C1 :
    Main.parse ['>', '<', '[', '.', ']', '.'] =
      .ok [Main.Instruction.IncPtr, .DecPtr, .LoopOpen 4, .Write, .LoopEnd 2, .Write] ∧
    Main.eval 20 [Main.Instruction.IncPtr, .DecPtr, .LoopOpen 4, .Write, .LoopEnd 2, .Write]
      (Main.initConfig []) = some (.ok [0]) ∧
    Main.clearloop (Main.cancel
      [Main.Instruction.IncPtr, .DecPtr, .LoopOpen 4, .Write, .LoopEnd 2, .Write]) =
      [Main.Instruction.LoopOpen 4, .Write, .LoopEnd 2, .Write] ∧
    Main.eval 20 [Main.Instruction.LoopOpen 4, .Write, .LoopEnd 2, .Write]
      (Main.initConfig []) = some (.ok []) := by
  refine ⟨by rfl, by decide, ?_, by decide⟩
  have hc : Main.cancel
      [Main.Instruction.IncPtr, .DecPtr, .LoopOpen 4, .Write, .LoopEnd 2, .Write] =
      [Main.Instruction.LoopOpen 4, .Write, .LoopEnd 2, .Write] := by decide
  rw [hc]
  simp [Main.clearloop, Main.clearloopGo]

/-- C7: `IncVal`/`DecVal` act on `tape[ptr]` with 8-bit wraparound
(`wrapping_add`/`wrapping_sub`: the successor or predecessor modulo 256, so
255 increments to 0 and 0 decrements to 255), and the program of 256 `+`
followed by one `.` outputs exactly the single byte 0. -/
theorem spec_C7 :
    (∀ (fuel : Nat) (bf : List Main.Instruction) (c : Main.Config),
        bf[c.pc]? = some .IncVal → c.ptr < 64 →
        Main.eval (fuel + 1) bf c =
          Main.eval fuel bf { c with
            tape := c.tape.set c.ptr ((c.tape.getD c.ptr 0 + 1) % 256),
            pc := c.pc + 1 }) ∧
    (∀ (fuel : Nat) (bf : List Main.Instruction) (c : Main.Config),
        bf[c.pc]? = some .DecVal → c.ptr < 64 →
        Main.eval (fuel + 1) bf c =
          Main.eval fuel bf { c with
            tape := c.tape.set c.ptr ((c.tape.getD c.ptr 0 + 255) % 256),
            pc := c.pc + 1 }) ∧
    (∀ (fuel : Nat) (bf : List Main.Instruction) (c : Main.Config),
        bf[c.pc]? = some .IncVal → c.ptr < 64 → c.tape.getD c.ptr 0 = 255 →
        Main.eval (fuel + 1) bf c =
          Main.eval fuel bf { c with tape := c.tape.set c.ptr 0, pc := c.pc + 1 }) ∧
    (∀ (fuel : Nat) (bf : List Main.Instruction) (c : Main.Config),
        bf[c.pc]? = some .DecVal → c.ptr < 64 → c.tape.getD c.ptr 0 = 0 →
        Main.eval (fuel + 1) bf c =
          Main.eval fuel bf { c with tape := c.tape.set c.ptr 255, pc := c.pc + 1 }) ∧
    Main.eval 300 (List.replicate 256 Main.Instruction.IncVal ++ [Main.Instruction.Write])
      (Main.initConfig []) = some (.ok [0]) := by
  refine ⟨?_, ?_, ?_, ?_, by set_option maxRecDepth 8192 in decide⟩
  · intro fuel bf c hpc hptr
    simp [Main.eval, hpc, hptr]
  · intro fuel bf c hpc hptr
    simp [Main.eval, hpc, hptr]
  · intro fuel bf c hpc hptr hv
    have hv2 : c.tape[c.ptr]?.getD 0 = 255 := by
      rw [← List.getD_eq_getElem?_getD]
      exact hv
    simp [Main.eval, hpc, hptr, hv2]
  · intro fuel bf c hpc hptr hv
    have hv2 : c.tape[c.ptr]?.getD 0 = 0 := by
      rw [← List.getD_eq_getElem?_getD]
      exact hv
    simp [Main.eval, hpc, hptr, hv2]

/-- C7 witness: the theorem's concrete run, 256 increments wrapping back to
0 and printing it. -/
theorem spec_C7_witness :
    Main.eval 300 (List.replicate 256 Main.Instruction.IncVal ++ [Main.Instruction.Write])
      (Main.initConfig []) = some (.ok [0]) :=
  spec_C7.2.2.2.2

/-- C8: a `Read` with the input source exhausted returns the `io::Error`
from `read_exact` at once — the run stops with the output written so far,
executing nothing further; a `Read` with a byte available consumes exactly
that byte and stores it in the cell at the pointer before moving on. -/
theorem spec_C8 :
    (∀ (fuel : Nat) (bf : List Main.Instruction) (c : Main.Config),
        bf[c.pc]? = some .Read → c.input = [] →
        Main.eval (fuel + 1) bf c = some (.ioError c.output)) ∧
    (∀ (fuel : Nat) (bf : List Main.Instruction) (c : Main.Config) (b : Nat)
        (rest : List Nat),
        bf[c.pc]? = some .Read → c.input = b :: rest → c.ptr < 64 →
        Main.eval (fuel + 1) bf c =
          Main.eval fuel bf { c with
            tape := c.tape.set c.ptr b, input := rest, pc := c.pc + 1 }) := by
  constructor
  · intro fuel bf c hpc hin
    simp [Main.eval, hpc, hin]
  · intro fuel bf c b rest hpc hin hptr
    simp [Main.eval, hpc, hin, hptr]

/-- C8 witness: `,` on an empty input stream stops at once with an I/O
error and no output. -/
theorem spec_C8_witness :
    Main.eval 1 [Main.Instruction.Read] (Main.initConfig []) = some (.ioError []) :=
  spec_C8.1 0 [Main.Instruction.Read] (Main.initConfig []) rfl rfl

/-- C9: decrementing the pointer at cell 0 faults (the `usize` subtraction
overflow panic), an instruction that indexes `tape[ptr]` with the pointer
beyond cell 63 faults (index out of bounds) — for `Read` provided a byte is
available, since `read_exact` runs before the tape access — and a fault is
a distinct outcome from both normal completion and the caught I/O error. -/
theorem spec_C9 :
    (∀ (fuel : Nat) (bf : List Main.Instruction) (c : Main.Config),
        bf[c.pc]? = some .DecPtr → c.ptr = 0 →
        Main.eval (fuel + 1) bf c = some (.fault c.output)) ∧
    (∀ (fuel : Nat) (bf : List Main.Instruction) (c : Main.Config)
        (i : Main.Instruction),
        bf[c.pc]? = some i → Main.accessesTape i = true →
        (i = .Read → c.input ≠ []) → 64 ≤ c.ptr →
        Main.eval (fuel + 1) bf c = some (.fault c.output)) ∧
    (∀ o o' : List Nat, Main.Outcome.fault o ≠ .ok o' ∧ Main.Outcome.fault o ≠ .ioError o') := by
  refine ⟨?_, ?_, ?_⟩
  · intro fuel bf c hpc hptr
    simp [Main.eval, hpc, hptr]
  · intro fuel bf c i hpc hacc hread hptr
    have hnlt : ¬ c.ptr < 64 := by omega
    cases i with
    | IncPtr => simp [Main.accessesTape] at hacc
    | DecPtr => simp [Main.accessesTape] at hacc
    | Read =>
      cases hin : c.input with
      | nil => exact absurd hin (hread rfl)
      | cons b rest => simp [Main.eval, hpc, hin, hnlt]
    | IncVal => simp [Main.eval, hpc, hnlt]
    | DecVal => simp [Main.eval, hpc, hnlt]
    | ClearVal => simp [Main.eval, hpc, hnlt]
    | Write => simp [Main.eval, hpc, hnlt]
    | LoopOpen e => simp [Main.eval, hpc, hnlt]
    | LoopEnd o => simp [Main.eval, hpc, hnlt]
  · intro o o'
    constructor <;> simp

/-- C9 witness: `<` as the first instruction faults immediately. -/
theorem spec_C9_witness :
    Main.eval 1 [Main.Instruction.DecPtr] (Main.initConfig []) = some (.fault []) :=
  spec_C9.1 0 [Main.Instruction.DecPtr] (Main.initConfig []) rfl rfl
